import Mathlib

/-!
# Verification of the caption pipeline in `telegram_bot.py`

Shallow embedding of the caption-normalization, overlay-building,
job-counter, output-naming and temp-file-cleanup logic of
`telegram_bot.py`.  Python floats are modelled as exact rationals (`ℚ`);
fallible dictionary access (`seg["text"]`) is modelled with `Except`.
-/

namespace TgBot

/-- A word-level timestamp entry, as produced by the transcription engine or
synthesized by the fallback: the Python dict `{"start": _, "end": _, "word": _}`. -/
structure Word where
  start : ℚ
  end_ : ℚ
  word : String
deriving DecidableEq, Repr

/-- A transcription segment.  `seg.get("words", [])` treats a missing key and
an empty list identically, so `words` is a plain list with `[]` standing for
absent-or-empty; `start`, `end` and `text` are accessed with defaults or can
raise `KeyError`, hence `Option`. -/
structure Segment where
  start : Option ℚ
  end_ : Option ℚ
  text : Option String
  words : List Word
deriving DecidableEq, Repr

/-- The one error the normalization loop can raise: `seg["text"]` on a segment
with no word timing and no `"text"` key (Python `KeyError`). -/
inductive Err where
  | missingText
deriving DecidableEq, Repr

/-- A normalized caption event: start time, clamped duration, displayed word. -/
structure CaptionEvent where
  start : ℚ
  duration : ℚ
  text : String
deriving DecidableEq, Repr

/-- Whitespace tokenization: Python's `s.strip().split()` — split on runs of
whitespace, no empty tokens (`strip()` is absorbed by `split()` with no
arguments). -/
def splitWsAux : List Char → List Char → List String
  | [], acc => if acc.isEmpty then [] else [String.mk acc.reverse]
  | c :: cs, acc =>
    if c.isWhitespace then
      if acc.isEmpty then splitWsAux cs [] else String.mk acc.reverse :: splitWsAux cs []
    else
      splitWsAux cs (c :: acc)

/-- Python `s.strip().split()` on the underlying character list. -/
def pySplit (s : String) : List String := splitWsAux s.data []

/-- Fallback synthesis (lines 76–83 of `telegram_bot.py`): when a segment has
no word timing, read `seg["text"]` (raising on a missing key), tokenize it and
build one synthesized word per token, the `i`-th spanning
`[s + i·(e−s)/N, s + (i+1)·(e−s)/N]` where `s = seg.get("start", 0)` and
`e = seg.get("end", s + 2)`. -/
def fallbackWords (seg : Segment) : Except Err (List Word) :=
  match seg.text with
  | none => .error .missingText
  | some t =>
    let toks := pySplit t
    let s := seg.start.getD 0
    let e := seg.end_.getD (s + 2)
    .ok (toks.enum.map fun p =>
      { start := s + p.1 * ((e - s) / toks.length)
        end_ := s + (p.1 + 1) * ((e - s) / toks.length)
        word := p.2 })

/-- The word list the per-word loop runs over: the supplied `words` when
non-empty, otherwise the fallback synthesis. -/
def segWords (seg : Segment) : Except Err (List Word) :=
  if seg.words.isEmpty then fallbackWords seg else .ok seg.words

/-- Lines 85–88: one caption event per word, with the duration clamp
`duration = max(word_end - word_start, 0.01)`. -/
def wordEvent (w : Word) : CaptionEvent :=
  { start := w.start, duration := max (w.end_ - w.start) (1 / 100), text := w.word }

/-- All caption events of one segment, or the propagated `KeyError`. -/
def segEvents (seg : Segment) : Except Err (List CaptionEvent) :=
  (segWords seg).map (·.map wordEvent)

/-- The whole normalization loop over the transcription result's segments:
events of all segments in order; the first raising segment aborts everything
(no partial output). -/
def normalize : List Segment → Except Err (List CaptionEvent)
  | [] => .ok []
  | seg :: rest => do
    let evs ← segEvents seg
    let more ← normalize rest
    .ok (evs ++ more)

/-- Whether the result is an error: `true` exactly on `.error`. -/
def isErr {ε α : Type} : Except ε α → Bool
  | .error _ => true
  | .ok _ => false

instance {ε α : Type} [DecidableEq ε] [DecidableEq α] : DecidableEq (Except ε α) := fun a b =>
  match a, b with
  | .error x, .error y =>
    if h : x = y then .isTrue (h ▸ rfl) else .isFalse (fun hc => h (Except.error.inj hc))
  | .ok x, .ok y =>
    if h : x = y then .isTrue (h ▸ rfl) else .isFalse (fun hc => h (Except.ok.inj hc))
  | .error _, .ok _ => .isFalse (fun hc => Except.noConfusion hc)
  | .ok _, .error _ => .isFalse (fun hc => Except.noConfusion hc)

/-! ## Overlay clips (lines 91–101)

For each caption event the loop appends first a blue `ColorClip` (the
highlight) and then the white `TextClip` (the word), both with the event's
`set_start`/`set_duration`; `CompositeVideoClip([clip, *txt_clips])` puts the
base video track first.  Later list entries are drawn on top of earlier ones. -/

/-- The kind of a clip in the composited list. -/
inductive ClipKind where
  | base
  | highlight
  | text
deriving DecidableEq, Repr

/-- One entry of the `CompositeVideoClip` list. -/
structure Clip where
  kind : ClipKind
  start : ℚ
  duration : ℚ
  label : String
deriving DecidableEq, Repr

/-- The base video track (`clip`, already mirrored); its timing is the whole
video, recorded here with the neutral values the overlay logic never reads. -/
def baseClip : Clip := { kind := .base, start := 0, duration := 0, label := "" }

/-- The blue highlight `ColorClip` of one event. -/
def highlightClip (e : CaptionEvent) : Clip :=
  { kind := .highlight, start := e.start, duration := e.duration, label := e.text }

/-- The white `TextClip` of one event. -/
def textClip (e : CaptionEvent) : Clip :=
  { kind := .text, start := e.start, duration := e.duration, label := e.text }

/-- `txt_clips`: per event, highlight appended before text (lines 98–99). -/
def buildClips : List CaptionEvent → List Clip
  | [] => []
  | e :: rest => highlightClip e :: textClip e :: buildClips rest

/-- `CompositeVideoClip([clip, *txt_clips])` (line 101): base track first,
then the overlay clips in appended order. -/
def composite (evs : List CaptionEvent) : List Clip :=
  baseClip :: buildClips evs

/-! ## Job counter (lines 44 and 117)

`file_counter = count(start=1)`; every incoming handled message draws
`counter_value = next(file_counter)` before the video check, so accepted
video submissions receive a subsequence of `1, 2, 3, …`. -/

/-- Run the handler over a stream of messages (`true` = the message carries a
video and is accepted), drawing an id from the counter for each; returns the
(accepted?, id) pairs in order.  `c` is the counter's next value. -/
def runHandlers : List Bool → ℕ → List (Bool × ℕ)
  | [], _ => []
  | b :: rest, c => (b, c) :: runHandlers rest (c + 1)

/-- The ids assigned to accepted submissions, in assignment order, starting
from the counter's initial value 1. -/
def acceptedIds (msgs : List Bool) : List ℕ :=
  ((runHandlers msgs 1).filter (·.1)).map (·.2)

/-! ## Output naming (lines 103–104)

`dest_path = os.path.join(OUTPUT_FOLDER, f"video_{counter_value}_{timestamp}.mp4")`
with `timestamp = datetime.now().strftime("%Y%m%d_%H%M%S")`, a string of
exactly 15 characters. -/

/-- The decimal digit character of `d < 10`. -/
def digitChar (d : ℕ) : Char := Char.ofNat (48 + d)

/-- Decimal rendering of a natural number, as Python's `f"{n}"` produces for
the counter values `n ≥ 1` (big-endian digits, no sign, no padding). -/
def natDecimalRepr (n : ℕ) : String :=
  String.mk (((Nat.digits 10 n).map digitChar).reverse)

/-- The output filename `f"video_{counter_value}_{timestamp}.mp4"`. -/
def outputFilename (counterValue : ℕ) (timestamp : String) : String :=
  "video_" ++ natDecimalRepr counterValue ++ "_" ++ timestamp ++ ".mp4"

/-! ## The handler's resource lifecycle (lines 128–149)

`download_video` creates a temporary input file (`NamedTemporaryFile` with
`delete=False`), then runs a `try` block (get_file, download, ack reply,
render in the executor, send the result), an `except` block (error reply) and
a `finally` block that removes the temp file if it still exists.  Each
fallible step is modelled by a flag of the environment saying whether it
succeeds; the state tracked is whether the temp file exists on disk. -/

/-- Which of the fallible steps of one job succeed. -/
structure JobEnv where
  getFileOk : Bool
  downloadOk : Bool
  ackReplyOk : Bool
  renderOk : Bool
  sendOk : Bool
  errorReplyOk : Bool
deriving DecidableEq, Repr

/-- Terminal condition of one handled job. -/
inductive Outcome where
  /-- the `try` block ran to the end -/
  | completed
  /-- some step raised and the `except` block's error reply was delivered -/
  | failed
  /-- some step raised and the error reply itself raised; the exception
  propagates out of the handler (the `finally` block still runs) -/
  | crashed
deriving DecidableEq, Repr

/-- One run of the body of `download_video` after the temp file is created:
returns the outcome and whether the temp input file exists afterwards. -/
def runDownloadVideo (env : JobEnv) : Outcome × Bool :=
  -- tempfile.NamedTemporaryFile(suffix=".mp4", delete=False) creates the file
  let tempExists := true
  -- try: get_file; download_to_drive; reply_text; run_in_executor; send_video
  let tryOk := env.getFileOk && env.downloadOk && env.ackReplyOk
      && env.renderOk && env.sendOk
  -- except Exception: logger.exception; reply_text (which may itself raise)
  let outcome :=
    if tryOk then Outcome.completed
    else if env.errorReplyOk then Outcome.failed else Outcome.crashed
  -- finally: if os.path.exists(temp_input): os.remove(temp_input)
  let tempExists := if tempExists then false else tempExists
  (outcome, tempExists)

/-! ## Spec-side definition for the fallback-partition claim

`specUniformEvents` is written from the SPEC's words, not from the code: the
N caption events the spec says fallback synthesis produces — token `i` as an
event starting at `s + i·(d/N)` with the uniform duration `d/N`.  It is
compared against `segEvents`, the embedding of the code. -/

/-- The event list the spec's uniform-partition sentence describes. -/
def specUniformEvents (seg : Segment) : List CaptionEvent :=
  let s := seg.start.getD 0
  let e := seg.end_.getD (s + 2)
  let toks := pySplit (seg.text.getD "")
  toks.enum.map fun p =>
    { start := s + p.1 * ((e - s) / toks.length)
      duration := (e - s) / toks.length
      text := p.2 }

/-! ## Theorems -/

/-- C7: for every job that creates its temporary input file, the file does not
exist on disk after the job terminates, on every exit path — successful
completion, failure of any step of the `try` block (get_file, download, ack
reply, rendering, sending the reply) and even a failing error reply: the
`finally` block removes it unconditionally. -/
theorem temp_input_removed (env : JobEnv) : (runDownloadVideo env).2 = false := rfl

/-- C9: a segment without word timing whose text splits into zero whitespace
tokens produces no caption events and raises no error — the per-token division
sits under a map over the empty token list, so the segment is silently
skipped. -/
theorem zero_tokens_skipped (seg : Segment) (t : String)
    (hw : seg.words = []) (ht : seg.text = some t) (htoks : pySplit t = []) :
    segEvents seg = .ok [] := by
  simp [segEvents, segWords, hw, fallbackWords, ht, htoks, Except.map]

/-- Witness: a whitespace-only segment text is skipped without an error. -/
theorem zero_tokens_skipped_witness :
    (Segment.mk (some 0) (some 2) (some "   ") []).words = [] ∧
    pySplit "   " = [] ∧
    segEvents (Segment.mk (some 0) (some 2) (some "   ") []) = .ok [] :=
  ⟨rfl, by decide, zero_tokens_skipped _ "   " rfl rfl (by decide)⟩

/-- The two clips of event `i` sit at positions `2i` and `2i + 1` of
`txt_clips`, highlight first. -/
lemma buildClips_getElem (evs : List CaptionEvent) :
    ∀ i (h : i < evs.length),
      (buildClips evs)[2 * i]? = some (highlightClip (evs.get ⟨i, h⟩)) ∧
      (buildClips evs)[2 * i + 1]? = some (textClip (evs.get ⟨i, h⟩)) := by
  induction evs with
  | nil => intro i h; exact absurd h (Nat.not_lt_zero i)
  | cons e rest ih =>
    intro i h
    cases i with
    | zero => simp [buildClips]
    | succ n =>
      have h' : n < rest.length := Nat.lt_of_succ_lt_succ h
      have := ih n h'
      simpa [buildClips, Nat.mul_succ] using this

/-- C3: in the composited clip list the base video track comes first (index
0), and every event's highlight primitive stands at a positive index strictly
below the index of its text primitive, so the text is never drawn beneath its
own highlight. -/
theorem composite_zorder (evs : List CaptionEvent) :
    (composite evs)[0]? = some baseClip ∧
    ∀ i (h : i < evs.length), ∃ hi ti : ℕ, 0 < hi ∧ hi < ti ∧
      (composite evs)[hi]? = some (highlightClip (evs.get ⟨i, h⟩)) ∧
      (composite evs)[ti]? = some (textClip (evs.get ⟨i, h⟩)) := by
  constructor
  · simp [composite]
  · intro i h
    refine ⟨2 * i + 1, 2 * i + 2, Nat.succ_pos _, Nat.lt_succ_self _, ?_, ?_⟩
    · simpa [composite] using (buildClips_getElem evs i h).1
    · simpa [composite] using (buildClips_getElem evs i h).2

/-- Witness: the draw order on a concrete one-event composite. -/
theorem composite_zorder_witness :
    ((0 : ℕ) < 1) ∧
    (composite [CaptionEvent.mk 1 2 "ok"])[0]? = some baseClip ∧
    ∃ hi ti : ℕ, 0 < hi ∧ hi < ti ∧
      (composite [CaptionEvent.mk 1 2 "ok"])[hi]? = some (highlightClip (CaptionEvent.mk 1 2 "ok")) ∧
      (composite [CaptionEvent.mk 1 2 "ok"])[ti]? = some (textClip (CaptionEvent.mk 1 2 "ok")) :=
  ⟨Nat.one_pos, (composite_zorder [CaptionEvent.mk 1 2 "ok"]).1,
    (composite_zorder [CaptionEvent.mk 1 2 "ok"]).2 0 Nat.one_pos⟩

/-- Counting highlight and text clips in `txt_clips`: one of each per event. -/
lemma buildClips_filter_count (evs : List CaptionEvent) :
    ((buildClips evs).filter (fun c => c.kind == ClipKind.highlight)).length = evs.length ∧
    ((buildClips evs).filter (fun c => c.kind == ClipKind.text)).length = evs.length := by
  induction evs with
  | nil => simp [buildClips]
  | cons e rest ih =>
    have h1 : (ClipKind.text == ClipKind.highlight) = false := rfl
    have h2 : (ClipKind.highlight == ClipKind.highlight) = true := rfl
    have h3 : (ClipKind.highlight == ClipKind.text) = false := rfl
    have h4 : (ClipKind.text == ClipKind.text) = true := rfl
    simp [buildClips, highlightClip, textClip, List.filter, h1, h2, h3, h4, ih.1, ih.2]

/-- C4: every caption event yields exactly one highlight clip and one text
clip (the composited list holds as many of each kind as there are events),
and both carry exactly the event's start and duration. -/
theorem event_primitive_pair (evs : List CaptionEvent) :
    ((composite evs).filter (fun c => c.kind == ClipKind.highlight)).length = evs.length ∧
    ((composite evs).filter (fun c => c.kind == ClipKind.text)).length = evs.length ∧
    ∀ ev ∈ evs,
      (highlightClip ev).start = ev.start ∧ (textClip ev).start = ev.start ∧
      (highlightClip ev).duration = ev.duration ∧ (textClip ev).duration = ev.duration := by
  refine ⟨?_, ?_, ?_⟩
  · have h5 : (ClipKind.base == ClipKind.highlight) = false := rfl
    simpa [composite, baseClip, List.filter, h5] using (buildClips_filter_count evs).1
  · have h6 : (ClipKind.base == ClipKind.text) = false := rfl
    simpa [composite, baseClip, List.filter, h6] using (buildClips_filter_count evs).2
  · intro ev _
    exact ⟨rfl, rfl, rfl, rfl⟩

/-- Witness: the pair invariant on a concrete one-event list. -/
theorem event_primitive_pair_witness :
    ((composite [CaptionEvent.mk 3 4 "w"]).filter (fun c => c.kind == ClipKind.highlight)).length = 1 ∧
    (highlightClip (CaptionEvent.mk 3 4 "w")).start = 3 ∧
    (textClip (CaptionEvent.mk 3 4 "w")).duration = 4 :=
  ⟨(event_primitive_pair [CaptionEvent.mk 3 4 "w"]).1,
    ((event_primitive_pair [CaptionEvent.mk 3 4 "w"]).2.2 _ (List.mem_singleton.mpr rfl)).1,
    ((event_primitive_pair [CaptionEvent.mk 3 4 "w"]).2.2 _ (List.mem_singleton.mpr rfl)).2.2.2⟩

/-- Ids drawn later are at least the counter value. -/
lemma runHandlers_le (msgs : List Bool) : ∀ c, ∀ p ∈ runHandlers msgs c, c ≤ p.2 := by
  induction msgs with
  | nil => intro c p hp; simp [runHandlers] at hp
  | cons b rest ih =>
    intro c p hp
    simp only [runHandlers, List.mem_cons] at hp
    rcases hp with rfl | hp
    · exact le_refl _
    · exact Nat.le_of_succ_le (ih (c + 1) p hp)

/-- Ids drawn from the counter are strictly increasing in draw order. -/
lemma runHandlers_pairwise (msgs : List Bool) :
    ∀ c, (runHandlers msgs c).Pairwise (fun p q => p.2 < q.2) := by
  induction msgs with
  | nil => intro c; simp [runHandlers]
  | cons b rest ih =>
    intro c
    refine List.Pairwise.cons ?_ (ih (c + 1))
    intro q hq
    exact Nat.lt_of_succ_le (runHandlers_le rest (c + 1) q hq)

/-- Handling further messages extends the id assignment without touching the
ids already drawn. -/
lemma runHandlers_append (l1 l2 : List Bool) :
    ∀ c, runHandlers (l1 ++ l2) c = runHandlers l1 c ++ runHandlers l2 (c + l1.length) := by
  induction l1 with
  | nil => intro c; simp [runHandlers]
  | cons b rest ih =>
    intro c
    simp [runHandlers, ih (c + 1), Nat.add_comm, Nat.add_assoc, Nat.add_left_comm]

/-- C5: the job ids assigned to accepted submissions are strictly increasing
in assignment order (hence pairwise distinct), and handling more messages only
appends new ids — an id, once assigned, is never reassigned for the lifetime
of the process. -/
theorem job_ids_strict_mono (msgs : List Bool) :
    (acceptedIds msgs).Pairwise (· < ·) ∧
    ∀ more, ∃ rest, acceptedIds (msgs ++ more) = acceptedIds msgs ++ rest := by
  constructor
  · have h := (runHandlers_pairwise msgs 1).filter (·.1)
    rw [acceptedIds, List.pairwise_map]
    exact h
  · intro more
    refine ⟨((runHandlers more (1 + msgs.length)).filter (·.1)).map (·.2), ?_⟩
    rw [acceptedIds, acceptedIds, runHandlers_append msgs more 1, List.filter_append,
      List.map_append]

/-- A successful per-segment result is the word list mapped through the
per-word event builder. -/
lemma segEvents_ok_shape (seg : Segment) (evs : List CaptionEvent)
    (h : segEvents seg = .ok evs) :
    ∃ ws, segWords seg = .ok ws ∧ evs = ws.map wordEvent := by
  rw [segEvents] at h
  cases hws : segWords seg with
  | error e => rw [hws] at h; exact absurd h (by simp [Except.map])
  | ok ws =>
    rw [hws] at h
    simp only [Except.map, Except.ok.injEq] at h
    exact ⟨ws, rfl, h.symm⟩

/-- Every event of a successful normalization comes from some word through the
per-word event builder. -/
lemma normalize_ok_mem (segs : List Segment) (evs : List CaptionEvent)
    (h : normalize segs = .ok evs) (ev : CaptionEvent) (hev : ev ∈ evs) :
    ∃ w : Word, ev = wordEvent w := by
  induction segs generalizing evs with
  | nil =>
    rw [normalize] at h
    cases h
    simp at hev
  | cons seg rest ih =>
    rw [normalize] at h
    cases hse : segEvents seg with
    | error e => rw [hse] at h; exact absurd h (by simp [Except.bind, bind])
    | ok l =>
      rw [hse] at h
      cases hre : normalize rest with
      | error e => rw [hre] at h; exact absurd h (by simp [Except.bind, bind])
      | ok m =>
        rw [hre] at h
        simp only [Except.bind, bind, Except.ok.injEq] at h
        subst h
        rcases List.mem_append.1 hev with hl | hm
        · obtain ⟨ws, -, hshape⟩ := segEvents_ok_shape seg l hse
          subst hshape
          obtain ⟨w, -, rfl⟩ := List.mem_map.1 hl
          exact ⟨w, rfl⟩
        · exact ih m hre hm

/-- C2: every emitted event's duration is `max(word.end - word.start, 0.01)`
of the word it was built from — for the supplied-words path and the fallback
path alike — so no event of a successful normalization has a duration below
0.01, and none is zero or negative. -/
theorem event_duration_clamp :
    (∀ seg ws, segWords seg = .ok ws →
      segEvents seg = .ok (ws.map fun w =>
        { start := w.start, duration := max (w.end_ - w.start) (1 / 100), text := w.word })) ∧
    (∀ segs evs, normalize segs = .ok evs →
      ∀ ev ∈ evs, 1 / 100 ≤ ev.duration ∧ 0 < ev.duration) := by
  constructor
  · intro seg ws h
    rw [segEvents, h]
    rfl
  · intro segs evs h ev hev
    obtain ⟨w, rfl⟩ := normalize_ok_mem segs evs h ev hev
    refine ⟨le_max_right _ _, lt_of_lt_of_le (by norm_num) (le_max_right _ _)⟩

/-- Witness: the zero-length word `(1.0, 1.0, "ok")` yields an event of
duration exactly 0.01, at or above the floor and positive. -/
theorem event_duration_clamp_witness :
    segEvents (Segment.mk (some 0) (some 2) (some "x") [Word.mk 1 1 "ok"]) =
      .ok [CaptionEvent.mk 1 (1 / 100) "ok"] ∧
    (1 : ℚ) / 100 ≤ (CaptionEvent.mk 1 (1 / 100) "ok").duration ∧
    0 < (CaptionEvent.mk 1 (1 / 100) "ok").duration := by
  have h1 := event_duration_clamp.1 (Segment.mk (some 0) (some 2) (some "x") [Word.mk 1 1 "ok"])
    [Word.mk 1 1 "ok"] rfl
  have hmap : ([Word.mk 1 1 "ok"].map fun w =>
      ({ start := w.start, duration := max (w.end_ - w.start) (1 / 100), text := w.word } :
        CaptionEvent)) = [CaptionEvent.mk 1 (1 / 100) "ok"] := by
    norm_num
  rw [hmap] at h1
  have hn : normalize [Segment.mk (some 0) (some 2) (some "x") [Word.mk 1 1 "ok"]] =
      .ok [CaptionEvent.mk 1 (1 / 100) "ok"] := by
    rw [normalize, h1, normalize]
    rfl
  have h2 := event_duration_clamp.2 _ _ hn (CaptionEvent.mk 1 (1 / 100) "ok")
    (List.mem_singleton.mpr rfl)
  exact ⟨h1, h2.1, h2.2⟩

/-- A segment with no word timing and no text raises the `KeyError`. -/
lemma segEvents_missingText (seg : Segment) (hw : seg.words = []) (ht : seg.text = none) :
    segEvents seg = .error .missingText := by
  simp [segEvents, segWords, hw, fallbackWords, ht, Except.map]

/-- C8 (amended): a transcription result containing a segment that lacks
`text` AND has absent-or-empty `words` makes the whole normalization fail with
the propagated error — no partial event list is produced.  (As written the
claim is false: `seg["text"]` is only read on the fallback path, so a text-less
segment that does carry words processes fine; see the counterexample.) -/
theorem missing_text_fatal (segs : List Segment)
    (h : ∃ seg ∈ segs, seg.words = [] ∧ seg.text = none) :
    normalize segs = .error Err.missingText := by
  induction segs with
  | nil => simp at h
  | cons seg rest ih =>
    rcases h with ⟨s, hs, hws, hts⟩
    rcases List.mem_cons.1 hs with rfl | hmem
    · rw [normalize, segEvents_missingText s hws hts]
      rfl
    · rw [normalize]
      cases hse : segEvents seg with
      | error e =>
        cases e
        rfl
      | ok l =>
        rw [ih ⟨s, hmem, hws, hts⟩]
        rfl

/-- Witness: one segment with neither words nor text makes the job fail. -/
theorem missing_text_fatal_witness :
    normalize [Segment.mk (some 0) (some 1) none []] = .error Err.missingText :=
  missing_text_fatal [Segment.mk (some 0) (some 1) none []]
    ⟨Segment.mk (some 0) (some 1) none [], List.mem_singleton.mpr rfl, rfl, rfl⟩

/-- Counterexample to C8 as stated: a transcription result containing a
Segment that lacks `text` but carries word-level timing is processed without
any error and produces output. -/
theorem missing_text_fatal_cex :
    normalize [Segment.mk (some 0) (some 1) none [Word.mk 0 1 "hi"]] =
      .ok [CaptionEvent.mk 0 1 "hi"] ∧
    isErr (normalize [Segment.mk (some 0) (some 1) none [Word.mk 0 1 "hi"]]) = false := by
  have h : normalize [Segment.mk (some 0) (some 1) none [Word.mk 0 1 "hi"]] =
      .ok [CaptionEvent.mk 0 1 "hi"] := by
    norm_num [normalize, segEvents, segWords, wordEvent, Except.map, Except.bind, bind]
  exact ⟨h, by rw [h]; rfl⟩

/-- Per-segment start bound, given well-formed segment fields. -/
lemma segEvents_start_nonneg (seg : Segment)
    (hwords : ∀ w ∈ seg.words, 0 ≤ w.start)
    (hstart : 0 ≤ seg.start.getD 0)
    (hord : seg.start.getD 0 ≤ seg.end_.getD (seg.start.getD 0 + 2))
    (evs : List CaptionEvent) (h : segEvents seg = .ok evs) :
    ∀ ev ∈ evs, 0 ≤ ev.start := by
  intro ev hev
  obtain ⟨ws, hws, rfl⟩ := segEvents_ok_shape seg evs h
  obtain ⟨w, hw, rfl⟩ := List.mem_map.1 hev
  rw [segWords] at hws
  by_cases hemp : seg.words.isEmpty
  · rw [if_pos hemp] at hws
    rw [fallbackWords] at hws
    cases ht : seg.text with
    | none => rw [ht] at hws; exact absurd hws (by simp)
    | some t =>
      rw [ht] at hws
      simp only [Except.ok.injEq] at hws
      subst hws
      obtain ⟨p, hp, rfl⟩ := List.mem_map.1 hw
      show 0 ≤ seg.start.getD 0 + p.1 * ((seg.end_.getD (seg.start.getD 0 + 2) - seg.start.getD 0) / (pySplit t).length)
      have hd : (0:ℚ) ≤ (seg.end_.getD (seg.start.getD 0 + 2) - seg.start.getD 0) / (pySplit t).length :=
        div_nonneg (sub_nonneg.2 hord) (Nat.cast_nonneg _)
      exact add_nonneg hstart (mul_nonneg (Nat.cast_nonneg _) hd)
  · rw [if_neg hemp] at hws
    cases hws
    exact hwords w hw

/-- C10 (amended): every caption event of a successful normalization has
`start ≥ 0`, provided every supplied word start is nonnegative and every
segment's defaulted start is nonnegative and at most its defaulted end.  (As
written the claim is false: word starts are copied verbatim without clamping,
so a negative upstream word start yields an event with negative start; see the
counterexample.) -/
theorem event_start_nonneg (segs : List Segment)
    (hgood : ∀ seg ∈ segs, (∀ w ∈ seg.words, 0 ≤ w.start) ∧ 0 ≤ seg.start.getD 0 ∧
      seg.start.getD 0 ≤ seg.end_.getD (seg.start.getD 0 + 2))
    (evs : List CaptionEvent) (h : normalize segs = .ok evs) :
    ∀ ev ∈ evs, 0 ≤ ev.start := by
  induction segs generalizing evs with
  | nil => rw [normalize] at h; cases h; simp
  | cons seg rest ih =>
    intro ev hev
    rw [normalize] at h
    cases hse : segEvents seg with
    | error e => rw [hse] at h; exact absurd h (by simp [Except.bind, bind])
    | ok l =>
      rw [hse] at h
      cases hre : normalize rest with
      | error e => rw [hre] at h; exact absurd h (by simp [Except.bind, bind])
      | ok m =>
        rw [hre] at h
        simp only [Except.bind, bind, Except.ok.injEq] at h
        subst h
        rcases List.mem_append.1 hev with hl | hm
        · obtain ⟨h1, h2, h3⟩ := hgood seg (List.mem_cons_self _ _)
          exact segEvents_start_nonneg seg h1 h2 h3 l hse ev hl
        · exact ih (fun s hs => hgood s (List.mem_cons_of_mem _ hs)) m hre ev hm

/-- Witness: a well-formed input yields an event with nonnegative start. -/
theorem event_start_nonneg_witness :
    normalize [Segment.mk (some 0) (some 2) (some "x") [Word.mk 1 1 "ok"]] =
      .ok [CaptionEvent.mk 1 (1 / 100) "ok"] ∧
    0 ≤ (CaptionEvent.mk 1 (1 / 100) "ok").start := by
  have hn : normalize [Segment.mk (some 0) (some 2) (some "x") [Word.mk 1 1 "ok"]] =
      .ok [CaptionEvent.mk 1 (1 / 100) "ok"] := by
    norm_num [normalize, segEvents, segWords, wordEvent, Except.map, Except.bind, bind]
  refine ⟨hn, ?_⟩
  exact event_start_nonneg [Segment.mk (some 0) (some 2) (some "x") [Word.mk 1 1 "ok"]]
    (by intro s hs; rcases List.mem_singleton.1 hs with rfl; refine ⟨?_, by norm_num, by norm_num⟩
        intro w hw; rcases List.mem_singleton.1 hw with rfl; norm_num)
    [CaptionEvent.mk 1 (1 / 100) "ok"] hn (CaptionEvent.mk 1 (1 / 100) "ok")
    (List.mem_singleton.mpr rfl)

/-- Counterexample to C10 as stated: a supplied word with start −1 passes
through normalization verbatim and yields a caption event whose start is
negative. -/
theorem event_start_nonneg_cex :
    normalize [Segment.mk (some 0) (some 1) (some "x") [Word.mk (-1) 0 "x"]] =
      .ok [CaptionEvent.mk (-1) 1 "x"] ∧
    ¬ (0 ≤ (CaptionEvent.mk (-1) 1 "x").start) := by
  constructor
  · norm_num [normalize, segEvents, segWords, wordEvent, Except.map, Except.bind, bind]
  · norm_num

/-- C1 (amended): for a segment without word timing whose text splits into
`N > 0` tokens, with `s` the defaulted start, `e` the defaulted end and
`q = (e - s)/N` the uniform slot, the code synthesizes exactly the event list
the spec describes — one event per token in token order, the `i`-th starting
at `s + i·q` — and those events have equal duration `q`, tile the span
gaplessly and cover exactly `[s, e]`, PROVIDED the uniform slot is at least
the duration floor (`q ≥ 0.01`).  (As written, without that proviso, the
claim is false: for a span shorter than `0.01·N` the floor inflates every
duration to 0.01 and the events overlap; see the counterexample.) -/
theorem fallback_uniform_partition (seg : Segment) (t : String) (s e q : ℚ) (N : ℕ)
    (hw : seg.words = []) (ht : seg.text = some t)
    (hs : s = seg.start.getD 0) (he : e = seg.end_.getD (s + 2))
    (hN : N = (pySplit t).length) (hNpos : 0 < N)
    (hq : q = (e - s) / N)
    (hfloor : 1 / 100 ≤ q) :
    segEvents seg = .ok (specUniformEvents seg) ∧
    (specUniformEvents seg).length = N ∧
    (specUniformEvents seg).map (·.text) = pySplit t ∧
    (∀ i (h : i < (specUniformEvents seg).length),
      ((specUniformEvents seg).get ⟨i, h⟩).start = s + i * q ∧
      ((specUniformEvents seg).get ⟨i, h⟩).duration = q) ∧
    (∀ i (h1 : i < (specUniformEvents seg).length) (h2 : i + 1 < (specUniformEvents seg).length),
      ((specUniformEvents seg).get ⟨i, h1⟩).start + ((specUniformEvents seg).get ⟨i, h1⟩).duration
        = ((specUniformEvents seg).get ⟨i + 1, h2⟩).start) ∧
    (∀ h0 : 0 < (specUniformEvents seg).length,
      ((specUniformEvents seg).get ⟨0, h0⟩).start = s) ∧
    (∀ hl : N - 1 < (specUniformEvents seg).length,
      ((specUniformEvents seg).get ⟨N - 1, hl⟩).start
        + ((specUniformEvents seg).get ⟨N - 1, hl⟩).duration = e) := by
  subst hs he hN hq
  set s := seg.start.getD 0 with hs
  set e := seg.end_.getD (s + 2) with he
  set toks := pySplit t with htoks
  set q := (e - s) / (toks.length : ℚ) with hq
  have hspec : specUniformEvents seg = toks.enum.map (fun p =>
      ({ start := s + p.1 * q, duration := q, text := p.2 } : CaptionEvent)) := by
    simp [specUniformEvents, ht, ← hs, ← he, ← htoks, ← hq]
  have hget : ∀ i (h : i < (specUniformEvents seg).length),
      ((specUniformEvents seg).get ⟨i, h⟩).start = s + i * q ∧
      ((specUniformEvents seg).get ⟨i, h⟩).duration = q := by
    intro i h
    have h' : i < toks.length := by rw [hspec] at h; simpa using h
    have h2 : (specUniformEvents seg)[i]? =
        some ({ start := s + i * q, duration := q, text := toks.get ⟨i, h'⟩ } : CaptionEvent) := by
      rw [hspec, List.getElem?_eq_getElem (by simpa using h')]
      rw [List.getElem_map, List.getElem_enum]
      rfl
    have h3 := List.getElem?_eq_getElem h
    rw [h2] at h3
    have h4 : (specUniformEvents seg).get ⟨i, h⟩ =
        ({ start := s + i * q, duration := q, text := toks.get ⟨i, h'⟩ } : CaptionEvent) := by
      rw [List.get_eq_getElem]
      exact (Option.some.inj h3).symm
    rw [h4]
    exact ⟨rfl, rfl⟩
  refine ⟨?_, ?_, ?_, ?_, ?_, ?_, ?_⟩
  · -- the events the code builds are exactly the events the spec describes
    rw [segEvents, segWords, if_pos (by rw [hw]; rfl), fallbackWords, ht]
    simp only [Except.map, hspec, ← htoks, ← hs, ← he, ← hq]
    congr 1
    rw [List.map_map]
    refine List.map_congr_left ?_
    intro p _
    show wordEvent _ = _
    rw [wordEvent]
    have harith : (s + ((p.1 : ℚ) + 1) * q) - (s + (p.1 : ℚ) * q) = q := by ring
    congr 1
    · push_cast
      rw [harith]
      exact max_eq_left (le_trans (by norm_num) hfloor)
  · rw [hspec]; simp
  · rw [hspec, List.map_map]
    have : ((fun ev : CaptionEvent => ev.text) ∘ fun p : ℕ × String =>
        ({ start := s + p.1 * q, duration := q, text := p.2 } : CaptionEvent)) = Prod.snd := rfl
    rw [this, List.enum_map_snd]
  · exact hget
  · intro i h1 h2
    rw [(hget i h1).1, (hget i h1).2, (hget (i + 1) h2).1]
    push_cast
    ring
  · intro h0
    rw [(hget 0 h0).1]
    norm_num
  · intro hl
    rw [(hget (toks.length - 1) hl).1, (hget (toks.length - 1) hl).2]
    have hne : ((toks.length : ℚ)) ≠ 0 := by
      exact_mod_cast Nat.pos_iff_ne_zero.1 hNpos
    have hcast : (((toks.length - 1 : ℕ)) : ℚ) = (toks.length : ℚ) - 1 := by
      rw [Nat.cast_sub (Nat.one_le_iff_ne_zero.2 (Nat.pos_iff_ne_zero.1 hNpos)), Nat.cast_one]
    rw [hcast, hq]
    field_simp
    ring

/-- Witness: the spec's own example — segment `(0, 2, "hello world")` with no
word timing yields exactly the two events `(0, 1, "hello")` and
`(1, 1, "world")`. -/
theorem fallback_uniform_partition_witness :
    segEvents (Segment.mk (some 0) (some 2) (some "hello world") []) =
      .ok [CaptionEvent.mk 0 1 "hello", CaptionEvent.mk 1 1 "world"] ∧
    specUniformEvents (Segment.mk (some 0) (some 2) (some "hello world") []) =
      [CaptionEvent.mk 0 1 "hello", CaptionEvent.mk 1 1 "world"] := by
  have hsplit : pySplit "hello world" = ["hello", "world"] := by decide
  have hsp : specUniformEvents (Segment.mk (some 0) (some 2) (some "hello world") []) =
      [CaptionEvent.mk 0 1 "hello", CaptionEvent.mk 1 1 "world"] := by
    norm_num [specUniformEvents, hsplit, List.enum, List.enumFrom]
  have h := (fallback_uniform_partition (Segment.mk (some 0) (some 2) (some "hello world") [])
    "hello world" 0 2 1 2 rfl rfl rfl rfl (by rw [hsplit]; rfl) (by norm_num)
    (by norm_num) (by norm_num)).1
  rw [hsp] at h
  exact ⟨h, hsp⟩

/-- Counterexample to C1 as stated: for the zero-length segment
`(0, 0, "a b")` the code clamps each synthesized duration up to 0.01, so its
two events both start at 0 with duration 0.01 — they are not the spec's equal
`(e−s)/N`-partition of `[0, 0]` (which would have duration 0), the first
event's interval does not end where the second begins, and the two intervals
overlap. -/
theorem fallback_uniform_partition_cex :
    segEvents (Segment.mk (some 0) (some 0) (some "a b") []) =
      .ok [CaptionEvent.mk 0 (1 / 100) "a", CaptionEvent.mk 0 (1 / 100) "b"] ∧
    specUniformEvents (Segment.mk (some 0) (some 0) (some "a b") []) =
      [CaptionEvent.mk 0 0 "a", CaptionEvent.mk 0 0 "b"] ∧
    segEvents (Segment.mk (some 0) (some 0) (some "a b") []) ≠
      .ok (specUniformEvents (Segment.mk (some 0) (some 0) (some "a b") [])) ∧
    (CaptionEvent.mk 0 (1 / 100) "a").start + (CaptionEvent.mk 0 (1 / 100) "a").duration ≠
      (CaptionEvent.mk 0 (1 / 100) "b").start := by
  have hsplit : pySplit "a b" = ["a", "b"] := by decide
  have h1 : segEvents (Segment.mk (some 0) (some 0) (some "a b") []) =
      .ok [CaptionEvent.mk 0 (1 / 100) "a", CaptionEvent.mk 0 (1 / 100) "b"] := by
    norm_num [segEvents, segWords, fallbackWords, wordEvent, hsplit, List.enum, List.enumFrom,
      Except.map]
  have h2 : specUniformEvents (Segment.mk (some 0) (some 0) (some "a b") []) =
      [CaptionEvent.mk 0 0 "a", CaptionEvent.mk 0 0 "b"] := by
    norm_num [specUniformEvents, hsplit, List.enum, List.enumFrom]
  refine ⟨h1, h2, ?_, ?_⟩
  · rw [h1, h2]
    intro hc
    have := (Except.ok.inj hc)
    simp only [List.cons.injEq] at this
    exact absurd this.1 (by intro hev; have := congrArg CaptionEvent.duration hev; norm_num at this)
  · show (0 : ℚ) + 1 / 100 ≠ 0
    norm_num

/-- Distinct decimal digits render to distinct characters. -/
lemma digitChar_inj : ∀ a < 10, ∀ b < 10, digitChar a = digitChar b → a = b := by
  decide

/-- Rendering digit lists to characters is injective. -/
lemma map_digitChar_inj : ∀ l1 l2 : List ℕ, (∀ x ∈ l1, x < 10) → (∀ x ∈ l2, x < 10) →
    l1.map digitChar = l2.map digitChar → l1 = l2 := by
  intro l1
  induction l1 with
  | nil => intro l2 _ _ h; cases l2 <;> simp_all
  | cons a l ih =>
    intro l2 h1 h2 h
    cases l2 with
    | nil => simp at h
    | cons b m =>
      simp only [List.map_cons, List.cons.injEq] at h
      have ha := h1 a (List.mem_cons_self _ _)
      have hb := h2 b (List.mem_cons_self _ _)
      have := digitChar_inj a ha b hb h.1
      subst this
      rw [ih m (fun x hx => h1 x (List.mem_cons_of_mem _ hx))
        (fun x hx => h2 x (List.mem_cons_of_mem _ hx)) h.2]

/-- Decimal rendering of naturals is injective. -/
lemma natDecimalRepr_inj (m n : ℕ) (h : natDecimalRepr m = natDecimalRepr n) : m = n := by
  rw [natDecimalRepr, natDecimalRepr] at h
  have hdata := congrArg String.data h
  simp only at hdata
  have hrev := congrArg List.reverse hdata
  simp only [List.reverse_reverse] at hrev
  have hdig := map_digitChar_inj (Nat.digits 10 m) (Nat.digits 10 n)
    (fun x hx => Nat.digits_lt_base (by norm_num) hx)
    (fun x hx => Nat.digits_lt_base (by norm_num) hx) hrev
  have := congrArg (Nat.ofDigits 10) hdig
  rwa [Nat.ofDigits_digits, Nat.ofDigits_digits] at this

/-- C6: two jobs with distinct ids produce distinct output filenames whenever
their timestamps have equal length — in particular always within the same
wall-clock second (identical timestamps), and in general for the fixed-width
strftime format the code uses — because the filename embeds the job id. -/
theorem output_filenames_distinct (i j : ℕ) (ti tj : String)
    (hlen : ti.length = tj.length) (hij : i ≠ j) :
    outputFilename i ti ≠ outputFilename j tj := by
  intro heq
  apply hij
  apply natDecimalRepr_inj
  rw [outputFilename, outputFilename] at heq
  have hdata := congrArg String.data heq
  simp only [String.data_append] at hdata
  have hlen' : (natDecimalRepr i).data.length = (natDecimalRepr j).data.length := by
    have := congrArg List.length hdata
    simp only [List.length_append] at this
    have hti : ti.data.length = tj.data.length := hlen
    omega
  simp only [List.append_assoc] at hdata
  have h1 := List.append_inj hdata rfl
  have h2 := List.append_inj h1.2 hlen'
  exact String.ext h2.1

/-- Witness: two jobs finishing in the same second get distinct filenames. -/
theorem output_filenames_distinct_witness :
    outputFilename 1 "20251012_120000" ≠ outputFilename 2 "20251012_120000" :=
  output_filenames_distinct 1 2 "20251012_120000" "20251012_120000" rfl (by norm_num)

end TgBot
